import Mathlib

/-!
# Verification of the GridCal numerical-circuit compilation and linear-sensitivity engine

This file gives a shallow embedding, in Lean 4, of the numerical kernels of the
GridCal power-grid engine that the specification's claims are about:

* `compile_types` and `find_different_states`
  (from `GridCal/Engine/Core/common_functions.py`);
* `make_ptdf` (its `Bref` sub-matrix selection and angle-fixing) and `make_lodf`
  (from `GridCal/Engine/Simulations/LinearFactors/linear_analysis.py`);
* `compute_alpha` and `compute_ntc`
  (from `GridCal/Engine/Simulations/NTC/net_transfer_capacity_driver.py`);
* the `Vbus` voltage-guess update of `get_generator_data` / `get_battery_data` /
  `get_shunt_data`, the HVDC bus-type forcing of `get_hvdc_data`, and the
  branch-incidence construction of `get_branch_data`
  (from `GridCal/Engine/Core/Compilers/circuit_to_data.py`).

Machine floats are modelled by `ℚ` (the kernels perform only field operations
and comparisons, and every divergence exhibited below is an exact-arithmetic
control-flow fact, not a rounding fact).  NumPy arrays are modelled by `List`s
or by explicitly sized functions `ℕ → ℚ`; in-place writes are modelled by
functional updates applied in program order.
-/

namespace GridCal

/-! ## Bus mode codes (GridCal.Engine.basic_structures.BusMode) -/

/-- `BusMode.PQ.value` -/
def pqCode : ℕ := 1

/-- `BusMode.PV.value` -/
def pvCode : ℕ := 2

/-- `BusMode.Slack.value` -/
def slackCode : ℕ := 3

/-! ## compile_types (Core/common_functions.py, lines 25-67)

`np.where(types == v)[0]` returns the ascending list of positions of `v`;
`max(Sbus[pv])` is the maximum of the injections at the PV positions;
`np.where(Sbus == mx)[0][0]` is the first position in the *whole* `Sbus`
holding the value `mx`; `np.delete(pv, np.where(pv == i))` drops `i` from
`pv`; `np.r_[pq, pv]` concatenates and `.sort()` sorts ascending. -/

/-- Positions `i` with `types[i] = v`, ascending: `np.where(types == v)[0]`. -/
def whereEqN (types : List ℕ) (v : ℕ) : List ℕ :=
  (List.range types.length).filter (fun i => types.getD i 0 = v)

/-- Positions `i` with `Sbus[i] = v`, ascending: `np.where(Sbus == v)[0]`. -/
def whereEqQ (Sbus : List ℚ) (v : ℚ) : List ℕ :=
  (List.range Sbus.length).filter (fun i => Sbus.getD i 0 = v)

/-- Python `max` over a list, 0 as junk value on the empty list
(the source only evaluates it on a non-empty list). -/
def listMax : List ℚ → ℚ
  | [] => 0
  | x :: xs => xs.foldl max x

/-- Insert into an ascending list, keeping it ascending. -/
def insertAsc (x : ℕ) : List ℕ → List ℕ
  | [] => [x]
  | y :: ys => if x ≤ y then x :: y :: ys else y :: insertAsc x ys

/-- Ascending sort (`ndarray.sort()`), as an insertion sort. -/
def sortAsc (l : List ℕ) : List ℕ := l.foldr insertAsc []

/-- Result record of `compile_types`: the `ref, pq, pv, pqpv` index arrays. -/
structure CompiledTypes where
  ref : List ℕ
  pq : List ℕ
  pv : List ℕ
  pqpv : List ℕ
  deriving Repr, DecidableEq

/-- Shallow embedding of `compile_types(Sbus, types)`
(Core/common_functions.py lines 25-67).  When there is no slack bus and at
least one PV bus, `mx = max(Sbus[pv])`; if `mx > 0` the promoted index is
`np.where(Sbus == mx)[0][0]` (first position of `mx` in the whole array),
else it is `pv[0]`; the promoted index is deleted from `pv` (if present)
and becomes the sole element of `ref`. -/
def compile_types (Sbus : List ℚ) (types : List ℕ) : CompiledTypes :=
  let pq := whereEqN types pqCode
  let pv := whereEqN types pvCode
  let ref := whereEqN types slackCode
  if ref.length = 0 then
    if pv.length = 0 then
      -- blackout grid: nothing is corrected
      { ref := ref, pq := pq, pv := pv, pqpv := sortAsc (pq ++ pv) }
    else
      let mx := listMax (pv.map (fun i => Sbus.getD i 0))
      let i := if mx > 0 then (whereEqQ Sbus mx).headD 0 else pv.headD 0
      let pv2 := pv.filter (fun j => j ≠ i)
      { ref := [i], pq := pq, pv := pv2, pqpv := sortAsc (pq ++ pv2) }
  else
    { ref := ref, pq := pq, pv := pv, pqpv := sortAsc (pq ++ pv) }

/-! ## find_different_states (Core/common_functions.py, lines 70-113)

The Python dict preserves insertion order, so the key scan
`for t2 in list(states.keys())` visits representatives in the order they were
created, i.e. ascending.  A state row is compared with `np.array_equal`,
which on rows of one 2-D boolean array is plain element-wise (and length)
equality, i.e. `List` equality here. -/

/-- One step of the key scan of `find_different_states`: append `t` to the
value list of the first key whose state row equals row `t`; if no key
matches, append the new singleton group `(t, [t])` at the end. -/
def fdsStep (arr : List (List Bool)) (states : List (ℕ × List ℕ)) (t : ℕ) :
    List (ℕ × List ℕ) :=
  match states with
  | [] => [(t, [t])]
  | (k, l) :: rest =>
    if arr.getD t [] = arr.getD k [] then (k, l ++ [t]) :: rest
    else (k, l) :: fdsStep arr rest t

/-- Shallow embedding of `find_different_states(states_array, force_all)`
(Core/common_functions.py lines 70-113).  The dict is modelled as an
insertion-ordered association list. -/
def find_different_states (arr : List (List Bool)) (force_all : Bool) :
    List (ℕ × List ℕ) :=
  if force_all then (List.range arr.length).map (fun i => (i, [i]))
  else (List.range arr.length).foldl (fdsStep arr) []

/-- The earliest time index whose state row equals row `t`
(equals `t` itself when `t` is the first of its group). -/
def firstIdx (arr : List (List Bool)) (t : ℕ) : ℕ :=
  ((List.range arr.length).filter
    (fun s => arr.getD s [] = arr.getD t [])).headD t

/-! ## Generic list lemmas -/

lemma headD_mem_of_ne_nil {l : List ℕ} (h : l ≠ []) : l.headD 0 ∈ l := by
  cases l with
  | nil => exact absurd rfl h
  | cons a t => simp

lemma headD_le_of_pairwise_lt {l : List ℕ} (hl : l.Pairwise (· < ·)) {j : ℕ}
    (hj : j ∈ l) : l.headD 0 ≤ j := by
  cases l with
  | nil => cases hj
  | cons a t =>
    rcases List.mem_cons.mp hj with rfl | hj
    · exact le_rfl
    · exact le_of_lt ((List.pairwise_cons.mp hl).1 j hj)

lemma mem_whereEqN {types : List ℕ} {v i : ℕ} :
    i ∈ whereEqN types v ↔ i < types.length ∧ types.getD i 0 = v := by
  simp [whereEqN, List.mem_filter, List.mem_range]

lemma mem_whereEqQ {Sbus : List ℚ} {v : ℚ} {i : ℕ} :
    i ∈ whereEqQ Sbus v ↔ i < Sbus.length ∧ Sbus.getD i 0 = v := by
  simp [whereEqQ, List.mem_filter, List.mem_range]

lemma pairwise_whereEqQ (Sbus : List ℚ) (v : ℚ) :
    (whereEqQ Sbus v).Pairwise (· < ·) :=
  List.Pairwise.filter _ (List.pairwise_lt_range _)

lemma foldl_max_eq_or_mem (xs : List ℚ) (x : ℚ) :
    xs.foldl max x = x ∨ xs.foldl max x ∈ xs := by
  induction xs generalizing x with
  | nil => exact Or.inl rfl
  | cons y ys ih =>
    simp only [List.foldl_cons]
    rcases ih (max x y) with h | h
    · rcases max_choice x y with h2 | h2
      · exact Or.inl (by rw [h, h2])
      · exact Or.inr (by rw [h, h2]; exact List.mem_cons_self y ys)
    · exact Or.inr (List.mem_cons_of_mem _ h)

lemma le_foldl_max (xs : List ℚ) (x : ℚ) : x ≤ xs.foldl max x := by
  induction xs generalizing x with
  | nil => exact le_rfl
  | cons y ys ih => exact le_trans (le_max_left x y) (ih (max x y))

lemma mem_le_foldl_max {xs : List ℚ} (x : ℚ) {y : ℚ} (hy : y ∈ xs) :
    y ≤ xs.foldl max x := by
  induction xs generalizing x with
  | nil => cases hy
  | cons z zs ih =>
    rcases List.mem_cons.mp hy with rfl | hy
    · exact le_trans (le_max_right x y) (le_foldl_max zs _)
    · exact ih _ hy

lemma listMax_mem {l : List ℚ} (h : l ≠ []) : listMax l ∈ l := by
  cases l with
  | nil => exact absurd rfl h
  | cons x xs =>
    show xs.foldl max x ∈ x :: xs
    rcases foldl_max_eq_or_mem xs x with h2 | h2
    · rw [h2]; exact List.mem_cons_self x xs
    · exact List.mem_cons_of_mem _ h2

lemma le_listMax {l : List ℚ} {y : ℚ} (hy : y ∈ l) : y ≤ listMax l := by
  cases l with
  | nil => cases hy
  | cons x xs =>
    rcases List.mem_cons.mp hy with rfl | hy
    · exact le_foldl_max xs y
    · exact mem_le_foldl_max x hy

/-! ## C1: slack promotion in compile_types -/

/-- `mx = max(Sbus[pv])`: the largest injection among the tentative PV buses. -/
def pvMax (Sbus : List ℚ) (types : List ℕ) : ℚ :=
  listMax ((whereEqN types pvCode).map (fun i => Sbus.getD i 0))

/-- C1, counterexample.  The claim says that with no slack and at least one PV
bus, `compile_types` promotes *the PV bus with the largest positive injection
among the PV buses*, removing it from `pv`.  On `Sbus = [5, 5]` with bus 0
tentatively PQ and bus 1 tentatively PV, the promoted slack index is
`np.where(Sbus == mx)[0][0] = 0` — a PQ bus, because the search runs over the
whole injection array — and the returned `pv` still contains bus 1, so the
promoted bus is neither a PV bus nor removed from `pv`. -/
theorem C1_counterexample :
    (compile_types [5, 5] [pqCode, pvCode]).ref = [0] ∧
    [pqCode, pvCode].getD 0 0 ≠ pvCode ∧
    (compile_types [5, 5] [pqCode, pvCode]).pv = [1] ∧
    whereEqN [pqCode, pvCode] pvCode = [1] := by decide

/-- The slack index promoted by `compile_types` when there is no slack and
at least one PV bus: `np.where(Sbus == mx)[0][0]` when `mx > 0`, else `pv[0]`. -/
def promoted (Sbus : List ℚ) (types : List ℕ) : ℕ :=
  if pvMax Sbus types > 0 then (whereEqQ Sbus (pvMax Sbus types)).headD 0
  else (whereEqN types pvCode).headD 0

/-- Reduction of `compile_types` in the no-slack, some-PV case. -/
lemma compile_types_noslack (Sbus : List ℚ) (types : List ℕ)
    (href : whereEqN types slackCode = [])
    (hpv : whereEqN types pvCode ≠ []) :
    compile_types Sbus types =
      { ref := [promoted Sbus types],
        pq := whereEqN types pqCode,
        pv := (whereEqN types pvCode).filter (fun j => j ≠ promoted Sbus types),
        pqpv := sortAsc (whereEqN types pqCode ++
          (whereEqN types pvCode).filter (fun j => j ≠ promoted Sbus types)) } := by
  have hpvlen : ¬ (whereEqN types pvCode).length = 0 :=
    fun h => hpv (List.length_eq_zero.mp h)
  unfold compile_types promoted pvMax
  rw [href]
  simp only [List.length_nil]
  rw [if_pos trivial, if_neg hpvlen]

/-- C1, amended.  With no slack bus and a non-empty tentative PV set, letting
`mx` be the largest PV injection, `compile_types` promotes to slack the bus at
the *first index of the whole array* whose injection equals `mx` when
`mx > 0` (the first PV bus in index order when `mx ≤ 0`); the promoted index
is the sole element of `ref`, and the returned `pv` is the tentative PV list
with the promoted index filtered out — so the promoted bus is the
largest-positive-injection PV bus, removed from `pv`, exactly when the first
position of `mx` in the array is a PV bus. -/
theorem C1_amended (Sbus : List ℚ) (types : List ℕ)
    (hlen : Sbus.length = types.length)
    (href : whereEqN types slackCode = [])
    (hpv : whereEqN types pvCode ≠ []) :
    ∃ i, (compile_types Sbus types).ref = [i] ∧
      (compile_types Sbus types).pv =
        (whereEqN types pvCode).filter (fun j => j ≠ i) ∧
      (0 < pvMax Sbus types →
        Sbus.getD i 0 = pvMax Sbus types ∧
        ∀ j < i, Sbus.getD j 0 ≠ pvMax Sbus types) ∧
      (pvMax Sbus types ≤ 0 → i = (whereEqN types pvCode).headD 0) ∧
      (∀ k ∈ whereEqN types pvCode, Sbus.getD k 0 ≤ pvMax Sbus types) ∧
      (types.getD i 0 = pvCode →
        i ∈ whereEqN types pvCode ∧ i ∉ (compile_types Sbus types).pv) := by
  have hred := compile_types_noslack Sbus types href hpv
  have hmaxmem : pvMax Sbus types ∈
      (whereEqN types pvCode).map (fun i => Sbus.getD i 0) :=
    listMax_mem (by simpa using hpv)
  have hub : ∀ k ∈ whereEqN types pvCode, Sbus.getD k 0 ≤ pvMax Sbus types :=
    fun k hk => le_listMax (List.mem_map_of_mem _ hk)
  have hlenP : promoted Sbus types < types.length := by
    unfold promoted
    by_cases h0 : pvMax Sbus types > 0
    · rw [if_pos h0]
      obtain ⟨p, hp, hpe⟩ := List.mem_map.mp hmaxmem
      have hplen : p < Sbus.length := hlen ▸ (mem_whereEqN.mp hp).1
      have hpw : p ∈ whereEqQ Sbus (pvMax Sbus types) :=
        mem_whereEqQ.mpr ⟨hplen, hpe⟩
      have hwne : whereEqQ Sbus (pvMax Sbus types) ≠ [] :=
        fun h => by rw [h] at hpw; cases hpw
      exact hlen ▸ (mem_whereEqQ.mp (headD_mem_of_ne_nil hwne)).1
    · rw [if_neg h0]
      exact (mem_whereEqN.mp (headD_mem_of_ne_nil hpv)).1
  refine ⟨promoted Sbus types, by rw [hred], by rw [hred], ?_, ?_, hub, ?_⟩
  · intro h0
    have h0' : pvMax Sbus types > 0 := h0
    obtain ⟨p, hp, hpe⟩ := List.mem_map.mp hmaxmem
    have hplen : p < Sbus.length := hlen ▸ (mem_whereEqN.mp hp).1
    have hpw : p ∈ whereEqQ Sbus (pvMax Sbus types) :=
      mem_whereEqQ.mpr ⟨hplen, hpe⟩
    have hwne : whereEqQ Sbus (pvMax Sbus types) ≠ [] :=
      fun h => by rw [h] at hpw; cases hpw
    have hprom : promoted Sbus types = (whereEqQ Sbus (pvMax Sbus types)).headD 0 := by
      unfold promoted; rw [if_pos h0']
    have hi0mem : promoted Sbus types ∈ whereEqQ Sbus (pvMax Sbus types) := by
      rw [hprom]; exact headD_mem_of_ne_nil hwne
    refine ⟨(mem_whereEqQ.mp hi0mem).2, ?_⟩
    intro j hj hje
    have hjlen : j < Sbus.length := lt_trans hj (mem_whereEqQ.mp hi0mem).1
    have hjw : j ∈ whereEqQ Sbus (pvMax Sbus types) := mem_whereEqQ.mpr ⟨hjlen, hje⟩
    have := headD_le_of_pairwise_lt (pairwise_whereEqQ Sbus (pvMax Sbus types)) hjw
    rw [← hprom] at this
    exact absurd this (not_le.mpr hj)
  · intro hle
    unfold promoted
    rw [if_neg (not_lt.mpr hle)]
  · intro hty
    have him : promoted Sbus types ∈ whereEqN types pvCode :=
      mem_whereEqN.mpr ⟨hlenP, hty⟩
    refine ⟨him, ?_⟩
    rw [hred]
    simp [List.mem_filter]

/-- C1, witness for the amended theorem, at the spec's own example:
injections `[2, 5, -1]`, all three buses tentatively PV, no slack. -/
theorem C1_amended_witness :
    ∃ i, (compile_types [2, 5, -1] [pvCode, pvCode, pvCode]).ref = [i] ∧
      (compile_types [2, 5, -1] [pvCode, pvCode, pvCode]).pv =
        (whereEqN [pvCode, pvCode, pvCode] pvCode).filter (fun j => j ≠ i) ∧
      (0 < pvMax [2, 5, -1] [pvCode, pvCode, pvCode] →
        ([2, 5, -1] : List ℚ).getD i 0 = pvMax [2, 5, -1] [pvCode, pvCode, pvCode] ∧
        ∀ j < i, ([2, 5, -1] : List ℚ).getD j 0 ≠ pvMax [2, 5, -1] [pvCode, pvCode, pvCode]) ∧
      (pvMax [2, 5, -1] [pvCode, pvCode, pvCode] ≤ 0 →
        i = (whereEqN [pvCode, pvCode, pvCode] pvCode).headD 0) ∧
      (∀ k ∈ whereEqN [pvCode, pvCode, pvCode] pvCode,
        ([2, 5, -1] : List ℚ).getD k 0 ≤ pvMax [2, 5, -1] [pvCode, pvCode, pvCode]) ∧
      ([pvCode, pvCode, pvCode].getD i 0 = pvCode →
        i ∈ whereEqN [pvCode, pvCode, pvCode] pvCode ∧
        i ∉ (compile_types [2, 5, -1] [pvCode, pvCode, pvCode]).pv) :=
  C1_amended [2, 5, -1] [pvCode, pvCode, pvCode] (by decide) (by decide) (by decide)

/-! ## C10: grouping of identical topology states -/

/-- The concatenation of all the value lists of the state dictionary. -/
def fdsVals (states : List (ℕ × List ℕ)) : List ℕ := (states.map Prod.snd).flatten

lemma fdsVals_cons (p : ℕ × List ℕ) (rest : List (ℕ × List ℕ)) :
    fdsVals (p :: rest) = p.2 ++ fdsVals rest := by
  simp [fdsVals]

/-- Two dictionary entries either share their key or have different state
rows (used pairwise along the dictionary). -/
def keyRel (arr : List (List Bool)) (p q : ℕ × List ℕ) : Prop :=
  p.1 = q.1 ∨ arr.getD p.1 [] ≠ arr.getD q.1 []

lemma keyRel_symm (arr : List (List Bool)) : Symmetric (keyRel arr) := by
  intro p q h
  rcases h with h | h
  · exact Or.inl h.symm
  · exact Or.inr h.symm

lemma mem_fdsVals {states : List (ℕ × List ℕ)} {p : ℕ × List ℕ} {x : ℕ}
    (hp : p ∈ states) (hx : x ∈ p.2) : x ∈ fdsVals states :=
  List.mem_flatten.mpr ⟨p.2, List.mem_map_of_mem _ hp, hx⟩

lemma fdsStep_vals (arr : List (List Bool)) (states : List (ℕ × List ℕ)) (t : ℕ) :
    (fdsVals (fdsStep arr states t)).Perm (t :: fdsVals states) := by
  induction states with
  | nil => simp [fdsStep, fdsVals]
  | cons hd rest ih =>
    obtain ⟨k, l⟩ := hd
    by_cases hm : arr.getD t [] = arr.getD k []
    · simp only [fdsStep, if_pos hm, fdsVals_cons]
      exact (List.perm_append_singleton t l).append_right (fdsVals rest)
    · simp only [fdsStep, if_neg hm, fdsVals_cons]
      exact (ih.append_left l).trans List.perm_middle

lemma fdsStep_rowEq (arr : List (List Bool)) (states : List (ℕ × List ℕ)) (t : ℕ)
    (hb : ∀ p ∈ states, ∀ x ∈ p.2, arr.getD p.1 [] = arr.getD x []) :
    ∀ p ∈ fdsStep arr states t, ∀ x ∈ p.2, arr.getD p.1 [] = arr.getD x [] := by
  induction states with
  | nil =>
    intro p hp x hx
    simp only [fdsStep, List.mem_singleton] at hp
    subst hp
    simp only [List.mem_singleton] at hx
    subst hx
    rfl
  | cons hd rest ih =>
    obtain ⟨k, l⟩ := hd
    by_cases hm : arr.getD t [] = arr.getD k []
    · simp only [fdsStep, if_pos hm]
      intro p hp x hx
      rcases List.mem_cons.mp hp with rfl | hp
      · rcases List.mem_append.mp hx with hx | hx
        · exact hb (k, l) (List.mem_cons_self _ _) x hx
        · simp only [List.mem_singleton] at hx
          subst hx
          exact hm.symm
      · exact hb p (List.mem_cons_of_mem _ hp) x hx
    · simp only [fdsStep, if_neg hm]
      intro p hp x hx
      rcases List.mem_cons.mp hp with rfl | hp
      · exact hb (k, l) (List.mem_cons_self _ _) x hx
      · exact ih (fun q hq => hb q (List.mem_cons_of_mem _ hq)) p hp x hx

lemma fdsStep_keyLe (arr : List (List Bool)) (states : List (ℕ × List ℕ)) (t : ℕ)
    (hd : ∀ p ∈ states, ∀ x ∈ p.2, p.1 ≤ x)
    (hk : ∀ p ∈ states, p.1 < t) :
    ∀ p ∈ fdsStep arr states t, ∀ x ∈ p.2, p.1 ≤ x := by
  induction states with
  | nil =>
    intro p hp x hx
    simp only [fdsStep, List.mem_singleton] at hp
    subst hp
    simp only [List.mem_singleton] at hx
    subst hx
    exact le_rfl
  | cons q rest ih =>
    obtain ⟨k, l⟩ := q
    by_cases hm : arr.getD t [] = arr.getD k []
    · simp only [fdsStep, if_pos hm]
      intro p hp x hx
      rcases List.mem_cons.mp hp with rfl | hp
      · rcases List.mem_append.mp hx with hx | hx
        · exact hd (k, l) (List.mem_cons_self _ _) x hx
        · simp only [List.mem_singleton] at hx
          subst hx
          exact le_of_lt (hk (k, l) (List.mem_cons_self _ _))
      · exact hd p (List.mem_cons_of_mem _ hp) x hx
    · simp only [fdsStep, if_neg hm]
      intro p hp x hx
      rcases List.mem_cons.mp hp with rfl | hp
      · exact hd (k, l) (List.mem_cons_self _ _) x hx
      · exact ih (fun q hq => hd q (List.mem_cons_of_mem _ hq))
          (fun q hq => hk q (List.mem_cons_of_mem _ hq)) p hp x hx

lemma fdsStep_keyMem (arr : List (List Bool)) (states : List (ℕ × List ℕ)) (t : ℕ)
    (hf : ∀ p ∈ states, p.1 ∈ p.2) :
    ∀ p ∈ fdsStep arr states t, p.1 ∈ p.2 := by
  induction states with
  | nil =>
    intro p hp
    simp only [fdsStep, List.mem_singleton] at hp
    subst hp
    exact List.mem_singleton.mpr rfl
  | cons q rest ih =>
    obtain ⟨k, l⟩ := q
    by_cases hm : arr.getD t [] = arr.getD k []
    · simp only [fdsStep, if_pos hm]
      intro p hp
      rcases List.mem_cons.mp hp with rfl | hp
      · exact List.mem_append_left _ (hf (k, l) (List.mem_cons_self _ _))
      · exact hf p (List.mem_cons_of_mem _ hp)
    · simp only [fdsStep, if_neg hm]
      intro p hp
      rcases List.mem_cons.mp hp with rfl | hp
      · exact hf (k, l) (List.mem_cons_self _ _)
      · exact ih (fun q hq => hf q (List.mem_cons_of_mem _ hq)) p hp

lemma fdsStep_keys (arr : List (List Bool)) (states : List (ℕ × List ℕ)) (t : ℕ) :
    ∀ p ∈ fdsStep arr states t, (∃ q ∈ states, q.1 = p.1) ∨ p.1 = t := by
  induction states with
  | nil =>
    intro p hp
    simp only [fdsStep, List.mem_singleton] at hp
    subst hp
    exact Or.inr rfl
  | cons q rest ih =>
    obtain ⟨k, l⟩ := q
    by_cases hm : arr.getD t [] = arr.getD k []
    · simp only [fdsStep, if_pos hm]
      intro p hp
      rcases List.mem_cons.mp hp with rfl | hp
      · exact Or.inl ⟨(k, l), List.mem_cons_self _ _, rfl⟩
      · exact Or.inl ⟨p, List.mem_cons_of_mem _ hp, rfl⟩
    · simp only [fdsStep, if_neg hm]
      intro p hp
      rcases List.mem_cons.mp hp with rfl | hp
      · exact Or.inl ⟨(k, l), List.mem_cons_self _ _, rfl⟩
      · rcases ih p hp with ⟨q, hq, hqe⟩ | hpe
        · exact Or.inl ⟨q, List.mem_cons_of_mem _ hq, hqe⟩
        · exact Or.inr hpe

lemma fdsStep_pairwise (arr : List (List Bool)) (states : List (ℕ × List ℕ)) (t : ℕ)
    (hp : states.Pairwise (keyRel arr)) :
    (fdsStep arr states t).Pairwise (keyRel arr) := by
  induction states with
  | nil => simp [fdsStep]
  | cons q rest ih =>
    obtain ⟨k, l⟩ := q
    rw [List.pairwise_cons] at hp
    by_cases hm : arr.getD t [] = arr.getD k []
    · simp only [fdsStep, if_pos hm]
      rw [List.pairwise_cons]
      exact ⟨fun q hq => hp.1 q hq, hp.2⟩
    · simp only [fdsStep, if_neg hm]
      rw [List.pairwise_cons]
      refine ⟨?_, ih hp.2⟩
      intro q hq
      rcases fdsStep_keys arr rest t q hq with ⟨q', hq', hqe⟩ | hqe
      · have h := hp.1 q' hq'
        rcases h with h | h
        · exact Or.inl (h.trans hqe)
        · exact Or.inr (by rw [← hqe]; exact h)
      · exact Or.inr (by rw [hqe]; exact fun he => hm he.symm)

/-- Loop invariant of `find_different_states`: after folding the first `n`
time steps, the value lists partition `0..n-1`, every member of a group has
the same state row as its key, keys bound their members from below and belong
to their own group, and distinct groups have distinct state rows. -/
lemma fds_invariant (arr : List (List Bool)) (n : ℕ) :
    (fdsVals ((List.range n).foldl (fdsStep arr) [])).Perm (List.range n) ∧
    (∀ p ∈ (List.range n).foldl (fdsStep arr) [], ∀ x ∈ p.2,
      arr.getD p.1 [] = arr.getD x []) ∧
    (∀ p ∈ (List.range n).foldl (fdsStep arr) [], ∀ x ∈ p.2, p.1 ≤ x) ∧
    (∀ p ∈ (List.range n).foldl (fdsStep arr) [], p.1 ∈ p.2) ∧
    ((List.range n).foldl (fdsStep arr) []).Pairwise (keyRel arr) := by
  induction n with
  | zero => exact ⟨List.Perm.refl _, fun p hp => absurd hp (by simp),
      fun p hp => absurd hp (by simp), fun p hp => absurd hp (by simp), by simp⟩
  | succ n ih =>
    obtain ⟨hperm, hb, hdle, hf, hpw⟩ := ih
    have hfold : (List.range (n + 1)).foldl (fdsStep arr) [] =
        fdsStep arr ((List.range n).foldl (fdsStep arr) []) n := by
      rw [List.range_succ, List.foldl_append, List.foldl_cons, List.foldl_nil]
    have hk : ∀ p ∈ (List.range n).foldl (fdsStep arr) [], p.1 < n := by
      intro p hp
      exact List.mem_range.mp (hperm.mem_iff.mp (mem_fdsVals hp (hf p hp)))
    rw [hfold]
    refine ⟨?_, fdsStep_rowEq arr _ n hb, fdsStep_keyLe arr _ n hdle hk,
      fdsStep_keyMem arr _ n hf, fdsStep_pairwise arr _ n hpw⟩
    rw [List.range_succ]
    exact (fdsStep_vals arr _ n).trans
      ((hperm.cons n).trans (List.perm_append_singleton n _).symm)

/-- C10, confirmed.  For every boolean state matrix: the value lists of
`find_different_states` together contain every time index `0..ntime-1`
exactly once (their concatenation is a permutation of `range ntime`); every
time index `t` of a group shares a bit-identical state row with the group's
key, and that key is the earliest time index whose row equals `t`'s row; and
with `force_all` set every time index is its own singleton group. -/
theorem C10_find_different_states (arr : List (List Bool)) :
    (fdsVals (find_different_states arr false)).Perm (List.range arr.length) ∧
    (∀ k l, (k, l) ∈ find_different_states arr false → ∀ t ∈ l,
      arr.getD k [] = arr.getD t [] ∧
      ∀ j < k, arr.getD j [] ≠ arr.getD t []) ∧
    find_different_states arr true =
      (List.range arr.length).map (fun i => (i, [i])) := by
  obtain ⟨hperm, hb, hdle, hf, hpw⟩ := fds_invariant arr arr.length
  have hS : find_different_states arr false =
      (List.range arr.length).foldl (fdsStep arr) [] := rfl
  refine ⟨by rw [hS]; exact hperm, ?_, rfl⟩
  intro k l hkl t ht
  rw [hS] at hkl
  have hrow : arr.getD k [] = arr.getD t [] := hb (k, l) hkl t ht
  refine ⟨hrow, ?_⟩
  intro j hj hje
  -- j was processed before k, so it already sits in a group whose key has
  -- row equal to row t; that key differs from k, contradicting that groups
  -- have pairwise distinct rows.
  have hkmem : k ∈ fdsVals ((List.range arr.length).foldl (fdsStep arr) []) :=
    mem_fdsVals hkl (hf (k, l) hkl)
  have hkn : k < arr.length := List.mem_range.mp (hperm.mem_iff.mp hkmem)
  have hjn : j < arr.length := lt_trans hj hkn
  have hjmem : j ∈ fdsVals ((List.range arr.length).foldl (fdsStep arr) []) :=
    hperm.mem_iff.mpr (List.mem_range.mpr hjn)
  obtain ⟨lj, hlj, hjin⟩ := List.mem_flatten.mp hjmem
  obtain ⟨pj, hpj, hpje⟩ := List.mem_map.mp hlj
  have hpjkey : pj.1 ≤ j := hdle pj hpj j (hpje ▸ hjin)
  have hkeyne : pj.1 ≠ k := ne_of_lt (lt_of_le_of_lt hpjkey hj)
  have hpairne : pj ≠ (k, l) := fun he => hkeyne (by rw [he])
  have hrel : keyRel arr pj (k, l) :=
    List.Pairwise.forall (keyRel_symm arr) hpw hpj hkl hpairne
  rcases hrel with h | h
  · exact hkeyne h
  · exact h (by
      have h1 : arr.getD pj.1 [] = arr.getD j [] := hb pj hpj j (hpje ▸ hjin)
      rw [h1, hje, ← hrow])

/-- C10, witness: on the state matrix `[[true], [false], [true]]` the groups
are `{0: [0, 2], 1: [1]}`; applying the theorem at key 1 and member 1 shows
row 1 matches itself and no earlier row equals it. -/
theorem C10_find_different_states_witness :
    ([[true], [false], [true]] : List (List Bool)).getD 1 [] =
      [[true], [false], [true]].getD 1 [] ∧
    ∀ j < 1, ([[true], [false], [true]] : List (List Bool)).getD j [] ≠
      [[true], [false], [true]].getD 1 [] :=
  (C10_find_different_states [[true], [false], [true]]).2.1 1 [1]
    (by decide) 1 (by decide)

/-! ## C2: make_lodf (Simulations/LinearFactors/linear_analysis.py, lines 116-150) -/

/-- The default `numerical_zero = 1e-10` of `make_lodf`. -/
def numZero : ℚ := 1 / 10000000000

/-- `H = PTDF * (Cf - Ct).T`: entry `(i, j)` sums over the `nbus` bus
columns of the PTDF against row `j` of `Cf - Ct`. -/
def lodfH (nbus : ℕ) (Cf Ct PTDF : ℕ → ℕ → ℚ) (i j : ℕ) : ℚ :=
  ∑ k ∈ Finset.range nbus, PTDF i k * (Cf j k - Ct j k)

/-- Shallow embedding of `make_lodf(Cf, Ct, PTDF, correct_values,
numerical_zero)` (linear_analysis.py lines 116-150).  `LODF` starts at zero;
column `j` is divided by `div j = 1 - H[j,j]` only when `|div j|` exceeds
`numerical_zero`; then `np.fill_diagonal(LODF, -1)` overwrites the diagonal,
and the optional `correct_values` pass zeroes entries outside `[-1.2, 1.2]`. -/
def make_lodf (nbus : ℕ) (Cf Ct PTDF : ℕ → ℕ → ℚ)
    (correct_values : Bool) (numerical_zero : ℚ) : ℕ → ℕ → ℚ :=
  let H := lodfH nbus Cf Ct PTDF
  let div := fun j => 1 - H j j
  let L0 : ℕ → ℕ → ℚ := fun i j =>
    if |div j| > numerical_zero then H i j / div j else 0
  let L1 : ℕ → ℕ → ℚ := fun i j => if i = j then -1 else L0 i j
  if correct_values then
    fun i j => if L1 i j > 6 / 5 ∨ L1 i j < -(6 / 5) then 0 else L1 i j
  else L1

/-- C2, counterexample.  The claim says the *entire* column `c` is zero when
`|1 - H[c,c]| ≤ numerical_zero`.  On the one-branch system with
`Cf = [[1]]`, `Ct = [[0]]`, `PTDF = [[1]]` we get `H[0,0] = 1`, the column is
protected — but `np.fill_diagonal(LODF, -1)` then writes `LODF[0,0] = -1`,
so the returned column is not all zero. -/
theorem C2_counterexample :
    lodfH 1 (fun _ _ => 1) (fun _ _ => 0) (fun _ _ => 1) 0 0 = 1 ∧
    |1 - lodfH 1 (fun _ _ => 1) (fun _ _ => 0) (fun _ _ => 1) 0 0| ≤ numZero ∧
    make_lodf 1 (fun _ _ => 1) (fun _ _ => 0) (fun _ _ => 1) false numZero 0 0
      = -1 ∧ (-1 : ℚ) ≠ 0 := by
  refine ⟨?_, ?_, ?_, by norm_num⟩ <;>
    simp [lodfH, make_lodf, numZero, Finset.sum_range_succ]

/-- C2, amended.  When `|1 - H[c,c]| ≤ numerical_zero`, every *off-diagonal*
entry of column `c` of the returned LODF is zero while the diagonal entry is
`-1` (forced by the final `fill_diagonal` pass, with or without
`correct_values`); and — the no-`inf`/`NaN` part — whenever `numerical_zero`
is non-negative, every division actually performed uses a denominator
`1 - H[j,j] ≠ 0`. -/
theorem C2_amended (nbus : ℕ) (Cf Ct PTDF : ℕ → ℕ → ℚ) (cv : Bool) (ε : ℚ)
    (c : ℕ) (hc : |1 - lodfH nbus Cf Ct PTDF c c| ≤ ε) :
    (∀ i, make_lodf nbus Cf Ct PTDF cv ε i c = if i = c then -1 else 0) ∧
    (0 ≤ ε → ∀ j, ε < |1 - lodfH nbus Cf Ct PTDF j j| →
      1 - lodfH nbus Cf Ct PTDF j j ≠ 0) := by
  constructor
  · intro i
    by_cases hic : i = c
    · subst hic
      cases cv <;> simp [make_lodf, not_lt.mpr hc] <;> norm_num
    · cases cv <;> simp [make_lodf, not_lt.mpr hc, hic]
  · intro hε j hj hzero
    rw [hzero] at hj
    simp only [abs_zero] at hj
    exact absurd hj (not_lt.mpr hε)

/-- C2, witness for the amended theorem at the counterexample's inputs. -/
theorem C2_amended_witness :
    (∀ i, make_lodf 1 (fun _ _ => 1) (fun _ _ => 0) (fun _ _ => 1) true numZero
      i 0 = if i = 0 then -1 else 0) ∧
    (0 ≤ numZero → ∀ j, numZero <
        |1 - lodfH 1 (fun _ _ => 1) (fun _ _ => 0) (fun _ _ => 1) j j| →
      1 - lodfH 1 (fun _ _ => 1) (fun _ _ => 0) (fun _ _ => 1) j j ≠ 0) :=
  C2_amended 1 (fun _ _ => 1) (fun _ _ => 0) (fun _ _ => 1) true numZero 0
    (by simp [lodfH, numZero, Finset.sum_range_succ])

/-! ## C5: make_ptdf (Simulations/LinearFactors/linear_analysis.py, lines 76-113) -/

/-- `noref = np.arange(1, nb)`: all bus indices except bus 0. -/
def noref (n : ℕ) : List ℕ := List.range' 1 (n - 1)

/-- `Bref = Bbus[noslack, :][:, noref]` with `noslack = pqpv`:
rows are the `pqpv` buses, columns are **always** buses `1..n-1`. -/
def Bref (Bbus : ℕ → ℕ → ℚ) (pqpv : List ℕ) (n : ℕ) (i j : ℕ) : ℚ :=
  Bbus (pqpv.getD i 0) ((noref n).getD j 0)

/-- The perturbation matrix `dP` of `make_ptdf`: identity, or distributed
slack with `-1/(n-1)` off the diagonal. -/
def ptdfDP (n : ℕ) (distribute_slack : Bool) (i j : ℕ) : ℚ :=
  if distribute_slack then (if i = j then 1 else -(1 / ((n : ℚ) - 1)))
  else (if i = j then 1 else 0)

/-- `dP[noslack, :]`: the right-hand-side rows handed to the sparse solver. -/
def ptdfRhs (n : ℕ) (distribute_slack : Bool) (pqpv : List ℕ) (i j : ℕ) : ℚ :=
  ptdfDP n distribute_slack (pqpv.getD i 0) j

/-- `dTheta`: zero-initialised `(n, n)` matrix whose rows `noref = 1..n-1`
receive the solver output (`dTheta[noref, :] = dtheta_ref`); row 0 — bus 0,
not necessarily the slack — keeps angle sensitivity 0. -/
def ptdfDTheta (n : ℕ) (sol : ℕ → ℕ → ℚ) (i j : ℕ) : ℚ :=
  if 1 ≤ i ∧ i < n then sol (i - 1) j else 0

/-- Shallow embedding of `make_ptdf(Bbus, Bf, pqpv, distribute_slack)`
(linear_analysis.py lines 76-113), parameterised by the external sparse
direct solver `solveLin` (scipy's `spsolve`), which receives `Bref` and the
reduced right-hand side and returns `dtheta_ref`. -/
def make_ptdf (solveLin : (ℕ → ℕ → ℚ) → (ℕ → ℕ → ℚ) → (ℕ → ℕ → ℚ))
    (Bbus Bf : ℕ → ℕ → ℚ) (pqpv : List ℕ) (n : ℕ)
    (distribute_slack : Bool) : ℕ → ℕ → ℚ :=
  let dTheta := ptdfDTheta n
    (solveLin (Bref Bbus pqpv n) (ptdfRhs n distribute_slack pqpv))
  fun i j => ∑ k ∈ Finset.range n, Bf i k * dTheta k j

/-- Claim C5's reading of the reduced system: the rows *and columns* removed
from `Bbus` are exactly those of the bus(es) not in `pqpv`. -/
def BrefClaimC5 (Bbus : ℕ → ℕ → ℚ) (pqpv : List ℕ) (i j : ℕ) : ℚ :=
  Bbus (pqpv.getD i 0) (pqpv.getD j 0)

lemma noref_getD {n j : ℕ} (h : j < n - 1) : (noref n).getD j 0 = 1 + j := by
  unfold noref
  rw [List.getD_eq_getElem?_getD, List.getElem?_eq_getElem (by simpa using h)]
  simp

/-- C5, counterexample.  For `n = 2` with `pqpv = [0]` (the slack is bus 1),
the code keeps *column 1* of `Bbus` (`noref = arange(1, n)` always drops
column 0), whereas the claim says the column kept is that of the `pqpv` bus,
i.e. column 0: on `Bbus[i,j] = i + 2j` the two selections differ. -/
theorem C5_counterexample :
    Bref (fun i j => (i : ℚ) + 2 * j) [0] 2 0 0 = 2 ∧
    BrefClaimC5 (fun i j => (i : ℚ) + 2 * j) [0] 0 0 = 0 ∧
    (2 : ℚ) ≠ 0 := by
  refine ⟨?_, ?_, by norm_num⟩ <;> simp [Bref, BrefClaimC5, noref]

/-- C5, amended.  In `make_ptdf` the rows of the solved subsystem are exactly
the `pqpv` buses, but the columns kept are always buses `1..n-1` and the
angle sensitivity pinned at 0 is that of *bus 0* (row 0 of `dTheta`),
whether or not bus 0 is the slack; the claim's row-and-column selection is
recovered exactly when `pqpv = [1, ..., n-1]`, i.e. when the excluded
reference bus is bus 0. -/
theorem C5_amended (Bbus : ℕ → ℕ → ℚ) (pqpv : List ℕ) (n : ℕ)
    (sol : ℕ → ℕ → ℚ) :
    (∀ j, ptdfDTheta n sol 0 j = 0) ∧
    (∀ i j, j < n - 1 →
      Bref Bbus pqpv n i j = Bbus (pqpv.getD i 0) (1 + j)) ∧
    (pqpv = noref n → ∀ i j, j < pqpv.length →
      Bref Bbus pqpv n i j = BrefClaimC5 Bbus pqpv i j) := by
  refine ⟨fun j => by simp [ptdfDTheta], fun i j hj => by rw [Bref, noref_getD hj], ?_⟩
  intro hpq i j hj
  have hlen : pqpv.length = n - 1 := by rw [hpq]; simp [noref]
  have hj2 : j < n - 1 := by rw [← hlen]; exact hj
  unfold Bref BrefClaimC5
  rw [hpq, noref_getD hj2]

/-- C5, witness for the amended theorem: `n = 3`, `pqpv = noref 3 = [1, 2]`
(slack at bus 0), extracting the column-selection agreement at `(0, 1)`. -/
theorem C5_amended_witness :
    (∀ j, ptdfDTheta 3 (fun _ _ => (5 : ℚ)) 0 j = 0) ∧
    (∀ i j, j < 3 - 1 →
      Bref (fun i j => (i : ℚ) + 2 * j) (noref 3) 3 i j =
        (((noref 3).getD i 0 : ℕ) : ℚ) + 2 * ((1 + j : ℕ) : ℚ)) ∧
    (noref 3 = noref 3 → ∀ i j, j < (noref 3).length →
      Bref (fun i j => (i : ℚ) + 2 * j) (noref 3) 3 i j =
        BrefClaimC5 (fun i j => (i : ℚ) + 2 * j) (noref 3) i j) :=
  C5_amended (fun i j => (i : ℚ) + 2 * j) (noref 3) 3 (fun _ _ => (5 : ℚ))

/-! ## C4: compute_alpha (Simulations/NTC/net_transfer_capacity_driver.py, lines 35-77) -/

/-- In-place write `dP[i] = v` on a ℚ-valued array. -/
def writeQ (f : ℕ → ℚ) (i : ℕ) (v : ℚ) : ℕ → ℚ :=
  fun j => if j = i then v else f j

/-- The group total `n1`/`n2` of `compute_alpha`: sum of `P0[i]` over the
group's indices whose bus type is PV (2) or slack (3). -/
def groupSum (P0 : ℕ → ℚ) (bus_types : ℕ → ℕ) (idx : List ℕ) : ℚ :=
  idx.foldl
    (fun s i => if bus_types i = 2 ∨ bus_types i = 3 then s + P0 i else s) 0

/-- The perturbation vector `dP` built by `compute_alpha`: zeros, then the
`idx1` loop writes `dP[i] = dT * P0[i] / abs(n1)` at each dispatchable
sending bus, then the `idx2` loop writes `dP[i] = -dT * P0[i] / abs(n2)` at
each dispatchable receiving bus. -/
def computeAlphaDP (P0 : ℕ → ℚ) (bus_types : ℕ → ℕ) (idx1 idx2 : List ℕ)
    (dT : ℚ) : ℕ → ℚ :=
  let n1 := groupSum P0 bus_types idx1
  let n2 := groupSum P0 bus_types idx2
  let d1 := idx1.foldl
    (fun f i => if bus_types i = 2 ∨ bus_types i = 3 then
      writeQ f i (dT * P0 i / |n1|) else f) (fun _ => 0)
  idx2.foldl
    (fun f i => if bus_types i = 2 ∨ bus_types i = 3 then
      writeQ f i (-dT * P0 i / |n2|) else f) d1

/-- Shallow embedding of `compute_alpha(ptdf, P0, idx1, idx2, bus_types, dT)`
(net_transfer_capacity_driver.py lines 35-77):
`alpha = ptdf.dot(dP) / dT`. -/
def compute_alpha (nbus : ℕ) (ptdf : ℕ → ℕ → ℚ) (P0 : ℕ → ℚ)
    (bus_types : ℕ → ℕ) (idx1 idx2 : List ℕ) (dT : ℚ) (m : ℕ) : ℚ :=
  (∑ k ∈ Finset.range nbus,
    ptdf m k * computeAlphaDP P0 bus_types idx1 idx2 dT k) / dT

lemma foldl_writeQ_lookup (g : ℕ → ℚ) (val : ℕ → ℚ) (bus_types : ℕ → ℕ)
    (idx : List ℕ) (i : ℕ) :
    (idx.foldl (fun f j => if bus_types j = 2 ∨ bus_types j = 3 then
        writeQ f j (val j) else f) g) i =
      if i ∈ idx ∧ (bus_types i = 2 ∨ bus_types i = 3) then val i else g i := by
  induction idx generalizing g with
  | nil => simp
  | cons a rest ih =>
    rw [List.foldl_cons, ih]
    by_cases hmem : i ∈ rest ∧ (bus_types i = 2 ∨ bus_types i = 3)
    · rw [if_pos hmem, if_pos ⟨List.mem_cons_of_mem _ hmem.1, hmem.2⟩]
    · rw [if_neg hmem]
      by_cases hia : i = a
      · subst hia
        by_cases hd : bus_types i = 2 ∨ bus_types i = 3
        · rw [if_pos hd, if_pos ⟨List.mem_cons_self _ _, hd⟩]
          simp [writeQ]
        · rw [if_neg hd, if_neg (fun h => hd h.2)]
      · by_cases hd : bus_types a = 2 ∨ bus_types a = 3
        · rw [if_pos hd,
            if_neg (fun h => hmem ⟨(List.mem_cons.mp h.1).resolve_left hia, h.2⟩)]
          simp [writeQ, hia]
        · rw [if_neg hd,
            if_neg (fun h => hmem ⟨(List.mem_cons.mp h.1).resolve_left hia, h.2⟩)]

/-- Closed form of the perturbation vector: the `idx2` write wins at buses in
both groups; non-dispatchable buses and buses outside both groups stay 0. -/
lemma computeAlphaDP_eq (P0 : ℕ → ℚ) (bus_types : ℕ → ℕ) (idx1 idx2 : List ℕ)
    (dT : ℚ) (i : ℕ) :
    computeAlphaDP P0 bus_types idx1 idx2 dT i =
      if i ∈ idx2 ∧ (bus_types i = 2 ∨ bus_types i = 3) then
        -dT * P0 i / |groupSum P0 bus_types idx2|
      else if i ∈ idx1 ∧ (bus_types i = 2 ∨ bus_types i = 3) then
        dT * P0 i / |groupSum P0 bus_types idx1|
      else 0 := by
  unfold computeAlphaDP
  rw [foldl_writeQ_lookup]
  by_cases h2 : i ∈ idx2 ∧ (bus_types i = 2 ∨ bus_types i = 3)
  · rw [if_pos h2, if_pos h2]
  · rw [if_neg h2, if_neg h2, foldl_writeQ_lookup]

/-- C4, counterexample.  The claim says a sending-group bus with zero *or
negative* injection receives no perturbation.  With `idx1 = [0]`, bus 0 a PV
bus with injection `P0[0] = -1` and `dT = 1`, the code writes
`dP[0] = dT * P0[0] / abs(n1) = -1 ≠ 0`. -/
theorem C4_counterexample :
    computeAlphaDP (fun _ => -1) (fun _ => 2) [0] [] 1 0 = -1 ∧
    ((-1 : ℚ) < 0) ∧ (-1 : ℚ) ≠ 0 := by
  refine ⟨?_, by norm_num, by norm_num⟩
  rw [computeAlphaDP_eq]
  norm_num [groupSum]

/-- C4, amended.  In `compute_alpha`'s perturbation vector: non-dispatchable
buses and buses outside both groups receive no perturbation, and a
zero-injection bus receives none; but a dispatchable sending bus is perturbed
by `dT·P0[i]/|n1|` *regardless of sign* — strictly positive injections are
increased and strictly negative ones *decreased* (not left untouched) — and
symmetrically a dispatchable receiving bus gets `-dT·P0[i]/|n2|`, decreased
when its injection is positive and increased when negative. -/
theorem C4_amended (P0 : ℕ → ℚ) (bus_types : ℕ → ℕ) (idx1 idx2 : List ℕ)
    (dT : ℚ) (i : ℕ) :
    (¬(bus_types i = 2 ∨ bus_types i = 3) →
      computeAlphaDP P0 bus_types idx1 idx2 dT i = 0) ∧
    (i ∉ idx1 → i ∉ idx2 → computeAlphaDP P0 bus_types idx1 idx2 dT i = 0) ∧
    (P0 i = 0 → computeAlphaDP P0 bus_types idx1 idx2 dT i = 0) ∧
    (i ∈ idx1 → i ∉ idx2 → (bus_types i = 2 ∨ bus_types i = 3) →
      computeAlphaDP P0 bus_types idx1 idx2 dT i =
        dT * P0 i / |groupSum P0 bus_types idx1| ∧
      (0 < dT → groupSum P0 bus_types idx1 ≠ 0 →
        (0 < P0 i → 0 < computeAlphaDP P0 bus_types idx1 idx2 dT i) ∧
        (P0 i < 0 → computeAlphaDP P0 bus_types idx1 idx2 dT i < 0))) ∧
    (i ∈ idx2 → (bus_types i = 2 ∨ bus_types i = 3) →
      computeAlphaDP P0 bus_types idx1 idx2 dT i =
        -dT * P0 i / |groupSum P0 bus_types idx2| ∧
      (0 < dT → groupSum P0 bus_types idx2 ≠ 0 →
        (P0 i < 0 → 0 < computeAlphaDP P0 bus_types idx1 idx2 dT i) ∧
        (0 < P0 i → computeAlphaDP P0 bus_types idx1 idx2 dT i < 0))) := by
  rw [computeAlphaDP_eq]
  refine ⟨?_, ?_, ?_, ?_, ?_⟩
  · intro hnd
    rw [if_neg (fun h => hnd h.2), if_neg (fun h => hnd h.2)]
  · intro h1 h2
    rw [if_neg (fun h => h2 h.1), if_neg (fun h => h1 h.1)]
  · intro hz
    by_cases ha : i ∈ idx2 ∧ (bus_types i = 2 ∨ bus_types i = 3)
    · rw [if_pos ha, hz]; ring
    · rw [if_neg ha]
      by_cases hb : i ∈ idx1 ∧ (bus_types i = 2 ∨ bus_types i = 3)
      · rw [if_pos hb, hz]; ring
      · rw [if_neg hb]
  · intro hin hnotin hd
    rw [if_neg (fun h => hnotin h.1), if_pos ⟨hin, hd⟩]
    refine ⟨rfl, fun hdT hn1 => ⟨fun hpos => ?_, fun hneg => ?_⟩⟩
    · exact div_pos (mul_pos hdT hpos) (abs_pos.mpr hn1)
    · exact div_neg_of_neg_of_pos (mul_neg_of_pos_of_neg hdT hneg) (abs_pos.mpr hn1)
  · intro hin hd
    rw [if_pos ⟨hin, hd⟩]
    refine ⟨rfl, fun hdT hn2 => ⟨fun hneg => ?_, fun hpos => ?_⟩⟩
    · exact div_pos (mul_pos_of_neg_of_neg (neg_neg_of_pos hdT) hneg) (abs_pos.mpr hn2)
    · exact div_neg_of_neg_of_pos (mul_neg_of_neg_of_pos (neg_neg_of_pos hdT) hpos)
        (abs_pos.mpr hn2)

/-- C4, witness: dispatchable sending bus 0 (injection 3) is increased and
dispatchable receiving bus 1 (injection 4) is decreased. -/
theorem C4_amended_witness :
    0 < computeAlphaDP (fun k => if k = 0 then 3 else 4) (fun _ => 2) [0] [1] 1 0 ∧
    computeAlphaDP (fun k => if k = 0 then 3 else 4) (fun _ => 2) [0] [1] 1 1 < 0 := by
  constructor
  · exact (((C4_amended (fun k => if k = 0 then 3 else 4) (fun _ => 2) [0] [1] 1 0).2.2.2.1
      (by decide) (by decide) (by decide)).2 (by norm_num)
      (by norm_num [groupSum])).1 (by norm_num)
  · exact (((C4_amended (fun k => if k = 0 then 3 else 4) (fun _ => 2) [0] [1] 1 1).2.2.2.2
      (by decide) (by decide)).2 (by norm_num)
      (by norm_num [groupSum])).2 (by norm_num)

/-! ## C3 and C7: compute_ntc (Simulations/NTC/net_transfer_capacity_driver.py, lines 81-146)

The float values flowing through `atc_n`/`atc_final` may be `np.inf` (written
when a sensitivity is exactly zero), so they are modelled by `FVal`:
a finite rational or infinity. -/

/-- A float value of `compute_ntc`: finite, or `np.inf`. -/
inductive FVal where
  | fin : ℚ → FVal
  | inf : FVal
  deriving Repr, DecidableEq

/-- `abs(a) < abs(b)` on possibly-infinite values (`abs(inf) = inf`,
`inf < inf` is false). -/
def absLtF : FVal → FVal → Bool
  | FVal.fin x, FVal.fin y => decide (|x| < |y|)
  | FVal.fin _, FVal.inf => true
  | FVal.inf, _ => false

/-- Numeric order on the non-negative limits (`inf` at the top). -/
def fvalLe : FVal → FVal → Prop
  | FVal.fin x, FVal.fin y => x ≤ y
  | _, FVal.inf => True
  | FVal.inf, FVal.fin _ => False

/-- A value that is a non-negative rational or `inf`. -/
def fvalNonneg : FVal → Prop
  | FVal.fin x => 0 ≤ x
  | FVal.inf => True

/-- The transfer-limit formula of `compute_ntc` (used in both the "N" and the
"N-1" branch): `inf` when the sensitivity is 0, `(rate - flow) / s` when
`s > 0`, `(-rate - flow) / s` otherwise. -/
def atcVal (rate flow s : ℚ) : FVal :=
  if s = 0 then FVal.inf
  else if s > 0 then FVal.fin ((rate - flow) / s)
  else FVal.fin ((-rate - flow) / s)

/-- `beta[m, c] = alpha[m] + lodf[m, c] * alpha[c]`. -/
def ntcBeta (lodf : ℕ → ℕ → ℚ) (alpha : ℕ → ℚ) (m c : ℕ) : ℚ :=
  alpha m + lodf m c * alpha c

/-- `contingency_flow = flows[m] + lodf[m, c] * flows[c]`. -/
def ntcConFlow (lodf : ℕ → ℕ → ℚ) (flows : ℕ → ℚ) (m c : ℕ) : ℚ :=
  flows m + lodf m c * flows c

/-- One iteration of the "N-1" refinement loop of `compute_ntc` for branch
`m` at candidate contingency `c`: when `c ≠ m`, `|beta[m,c]| > threshold` and
the contingency flow is within the contingency rating, the candidate limit
replaces the accumulator if it is smaller in absolute value. -/
def ntcStep (lodf : ℕ → ℕ → ℚ) (alpha flows c_rates : ℕ → ℚ) (threshold : ℚ)
    (m : ℕ) (acc : FVal) (c : ℕ) : FVal :=
  if m ≠ c then
    if |ntcBeta lodf alpha m c| > threshold ∧
        |ntcConFlow lodf flows m c| ≤ c_rates m then
      if absLtF (atcVal (c_rates m) (ntcConFlow lodf flows m c)
          (ntcBeta lodf alpha m c)) acc then
        atcVal (c_rates m) (ntcConFlow lodf flows m c) (ntcBeta lodf alpha m c)
      else acc
    else acc
  else acc

/-- `atc_n[m]` of `compute_ntc`: the "N"-condition limit, written only when
the relevance gate `|alpha[m]| > threshold and |flows[m]| < rates[m]` passes;
otherwise it keeps its zero initialisation. -/
def ntcN (alpha flows rates : ℕ → ℚ) (threshold : ℚ) (m : ℕ) : FVal :=
  if |alpha m| > threshold ∧ |flows m| < rates m then
    atcVal (rates m) (flows m) (alpha m)
  else FVal.fin 0

/-- `atc_final[m]` of `compute_ntc` (net_transfer_capacity_driver.py lines
81-146): the "N" value refined over every candidate contingency
`c = 0..nbr-1`, or the zero initialisation when the relevance gate fails. -/
def ntcFinal (nbr : ℕ) (lodf : ℕ → ℕ → ℚ)
    (alpha flows rates c_rates : ℕ → ℚ) (threshold : ℚ) (m : ℕ) : FVal :=
  if |alpha m| > threshold ∧ |flows m| < rates m then
    (List.range nbr).foldl (ntcStep lodf alpha flows c_rates threshold m)
      (atcVal (rates m) (flows m) (alpha m))
  else FVal.fin 0

/-- C3, counterexample.  The claim says `alpha[m] = 0` yields a `+inf`
limit; but the `alpha[m] == 0 → inf` assignment sits inside the relevance
gate `abs(alpha[m]) > threshold`, which is false for `alpha[m] = 0` at the
default threshold `0.02`, so both `atc_n[m]` and `atc_final[m]` keep their
zero initialisation instead. -/
theorem C3_counterexample :
    ntcN (fun _ => 0) (fun _ => 0) (fun _ => 1) (1 / 50) 0 = FVal.fin 0 ∧
    ntcFinal 1 (fun _ _ => 0) (fun _ => 0) (fun _ => 0) (fun _ => 1)
      (fun _ => 1) (1 / 50) 0 = FVal.fin 0 ∧
    FVal.fin 0 ≠ FVal.inf := by
  refine ⟨?_, ?_, by simp⟩
  · norm_num [ntcN]
  · norm_num [ntcFinal]

/-- C3, amended.  For every non-negative threshold, a branch with
`alpha[m] = 0` fails the relevance gate `|alpha[m]| > threshold`, so
`compute_ntc` returns the zero initialisation — not `+inf` — for both its
normal-condition and final limits; the `alpha[m] == 0 → inf` branch of the
source is unreachable under the gate. -/
theorem C3_amended (nbr : ℕ) (lodf : ℕ → ℕ → ℚ)
    (alpha flows rates c_rates : ℕ → ℚ) (threshold : ℚ) (m : ℕ)
    (hthr : 0 ≤ threshold) (ha : alpha m = 0) :
    ntcN alpha flows rates threshold m = FVal.fin 0 ∧
    ntcFinal nbr lodf alpha flows rates c_rates threshold m = FVal.fin 0 := by
  have hgate : ¬ (|alpha m| > threshold ∧ |flows m| < rates m) := by
    rw [ha]
    simp only [abs_zero]
    exact fun h => absurd h.1 (not_lt.mpr hthr)
  exact ⟨by rw [ntcN, if_neg hgate], by rw [ntcFinal, if_neg hgate]⟩

/-- C3, witness for the amended theorem at the counterexample's input. -/
theorem C3_amended_witness :
    ntcN (fun _ => 0) (fun _ => 0) (fun _ => 1) (1 / 50) 0 = FVal.fin 0 ∧
    ntcFinal 1 (fun _ _ => 0) (fun _ => 0) (fun _ => 0) (fun _ => 1)
      (fun _ => 1) (1 / 50) 0 = FVal.fin 0 :=
  C3_amended 1 (fun _ _ => 0) (fun _ => 0) (fun _ => 0) (fun _ => 1)
    (fun _ => 1) (1 / 50) 0 (by norm_num) rfl

lemma fvalLe_refl (a : FVal) : fvalLe a a := by
  cases a with
  | fin x => exact le_refl x
  | inf => exact trivial

lemma fvalLe_of_nonneg_zero {a : FVal} (h : fvalNonneg a) : fvalLe (FVal.fin 0) a := by
  cases a with
  | fin x => exact h
  | inf => exact trivial

/-- Any value produced by the limit formula against a rating that bounds the
flow's magnitude is non-negative (or `inf`). -/
lemma atcVal_nonneg {rate flow : ℚ} (s : ℚ) (h : |flow| ≤ rate) :
    fvalNonneg (atcVal rate flow s) := by
  unfold atcVal
  by_cases hs0 : s = 0
  · rw [if_pos hs0]; exact trivial
  · rw [if_neg hs0]
    by_cases hsp : s > 0
    · rw [if_pos hsp]
      exact div_nonneg (by linarith [le_abs_self flow, abs_nonneg flow]) (le_of_lt hsp)
    · rw [if_neg hsp]
      have hsneg : s < 0 := lt_of_le_of_ne (not_lt.mp hsp) hs0
      have hflow : -rate ≤ flow := by
        have := neg_abs_le flow
        linarith
      exact div_nonneg_of_nonpos (by linarith) (le_of_lt hsneg)

/-- The limit formula is monotone in the rating. -/
lemma atcVal_rate_mono (flow s : ℚ) {r r' : ℚ} (h : r ≤ r') :
    fvalLe (atcVal r flow s) (atcVal r' flow s) := by
  unfold atcVal
  by_cases hs0 : s = 0
  · rw [if_pos hs0, if_pos hs0]; exact trivial
  · rw [if_neg hs0, if_neg hs0]
    by_cases hsp : s > 0
    · rw [if_pos hsp, if_pos hsp]
      show (r - flow) / s ≤ (r' - flow) / s
      rw [div_le_div_iff_of_pos_right hsp]
      linarith
    · rw [if_neg hsp, if_neg hsp]
      have hsneg : s < 0 := lt_of_le_of_ne (not_lt.mp hsp) hs0
      show (-r - flow) / s ≤ (-r' - flow) / s
      rw [div_le_div_right_of_neg hsneg]
      linarith

/-- Monotonicity of the `if abs(v) < abs(acc) then v else acc` refinement in
the accumulator, over non-negative (or infinite) values. -/
lemma minAbs_mono {v a a' : FVal} (hv : fvalNonneg v) (ha : fvalNonneg a)
    (ha' : fvalNonneg a') (hle : fvalLe a a') :
    fvalLe (if absLtF v a then v else a) (if absLtF v a' then v else a') := by
  cases v with
  | inf =>
    simp only [absLtF, Bool.false_eq_true, if_false]
    exact hle
  | fin x =>
    cases a with
    | inf =>
      cases a' with
      | inf =>
        simp only [absLtF, if_true]
        exact fvalLe_refl _
      | fin b0 => exact absurd hle (by simp [fvalLe])
    | fin a0 =>
      cases a' with
      | inf =>
        simp only [absLtF, if_true, decide_eq_true_eq]
        by_cases h1 : |x| < |a0|
        · rw [if_pos h1]; exact fvalLe_refl _
        · rw [if_neg h1]
          show a0 ≤ x
          have := not_lt.mp h1
          rw [abs_of_nonneg hv, abs_of_nonneg ha] at this
          exact this
      | fin b0 =>
        simp only [absLtF, decide_eq_true_eq]
        have hab : (a0 : ℚ) ≤ b0 := hle
        by_cases h1 : |x| < |a0|
        · have h2 : |x| < |b0| := by
            rw [abs_of_nonneg ha] at h1
            rw [abs_of_nonneg ha']
            exact lt_of_lt_of_le h1 hab
          rw [if_pos h1, if_pos h2]
          exact fvalLe_refl _
        · rw [if_neg h1]
          by_cases h2 : |x| < |b0|
          · rw [if_pos h2]
            show a0 ≤ x
            have := not_lt.mp h1
            rw [abs_of_nonneg hv, abs_of_nonneg ha] at this
            exact this
          · rw [if_neg h2]
            exact hab

lemma ntcStep_nonneg (lodf : ℕ → ℕ → ℚ) (alpha flows c_rates : ℕ → ℚ)
    (threshold : ℚ) (m c : ℕ) {acc : FVal} (h : fvalNonneg acc) :
    fvalNonneg (ntcStep lodf alpha flows c_rates threshold m acc c) := by
  unfold ntcStep
  by_cases hmc : m ≠ c
  · rw [if_pos hmc]
    by_cases hg : |ntcBeta lodf alpha m c| > threshold ∧
        |ntcConFlow lodf flows m c| ≤ c_rates m
    · rw [if_pos hg]
      by_cases hb : absLtF (atcVal (c_rates m) (ntcConFlow lodf flows m c)
          (ntcBeta lodf alpha m c)) acc = true
      · rw [if_pos hb]
        exact atcVal_nonneg _ hg.2
      · rw [if_neg hb]
        exact h
    · rw [if_neg hg]; exact h
  · rw [if_neg hmc]; exact h

lemma ntcStep_mono (lodf : ℕ → ℕ → ℚ) (alpha flows c_rates : ℕ → ℚ)
    (threshold : ℚ) (m c : ℕ) {a a' : FVal}
    (ha : fvalNonneg a) (ha' : fvalNonneg a') (hle : fvalLe a a') :
    fvalLe (ntcStep lodf alpha flows c_rates threshold m a c)
      (ntcStep lodf alpha flows c_rates threshold m a' c) := by
  unfold ntcStep
  by_cases hmc : m ≠ c
  · rw [if_pos hmc, if_pos hmc]
    by_cases hg : |ntcBeta lodf alpha m c| > threshold ∧
        |ntcConFlow lodf flows m c| ≤ c_rates m
    · rw [if_pos hg, if_pos hg]
      exact minAbs_mono (atcVal_nonneg _ hg.2) ha ha' hle
    · rw [if_neg hg, if_neg hg]; exact hle
  · rw [if_neg hmc, if_neg hmc]; exact hle

lemma ntcFold_nonneg (lodf : ℕ → ℕ → ℚ) (alpha flows c_rates : ℕ → ℚ)
    (threshold : ℚ) (m : ℕ) (cs : List ℕ) {acc : FVal} (h : fvalNonneg acc) :
    fvalNonneg (cs.foldl (ntcStep lodf alpha flows c_rates threshold m) acc) := by
  induction cs generalizing acc with
  | nil => exact h
  | cons c rest ih =>
    exact ih (ntcStep_nonneg lodf alpha flows c_rates threshold m c h)

lemma ntcFold_mono (lodf : ℕ → ℕ → ℚ) (alpha flows c_rates : ℕ → ℚ)
    (threshold : ℚ) (m : ℕ) (cs : List ℕ) {a a' : FVal}
    (ha : fvalNonneg a) (ha' : fvalNonneg a') (hle : fvalLe a a') :
    fvalLe (cs.foldl (ntcStep lodf alpha flows c_rates threshold m) a)
      (cs.foldl (ntcStep lodf alpha flows c_rates threshold m) a') := by
  induction cs generalizing a a' with
  | nil => exact hle
  | cons c rest ih =>
    exact ih (ntcStep_nonneg lodf alpha flows c_rates threshold m c ha)
      (ntcStep_nonneg lodf alpha flows c_rates threshold m c ha')
      (ntcStep_mono lodf alpha flows c_rates threshold m c ha ha' hle)

/-- C7, confirmed.  Increasing branch `m`'s rate while holding flows, alpha,
the LODF and the contingency rates fixed (and the other branches' rates
unchanged) never decreases `atc_final[m]`: the rate enters only through the
relevance gate `|flows[m]| < rates[m]` — monotone in the rate — and through
the "N"-condition value, which grows with the rate, while every "N-1"
candidate limit (all non-negative under its own qualification gate) is
unchanged, so the min-by-absolute-value refinement can only move up. -/
theorem C7_rate_mono (nbr : ℕ) (lodf : ℕ → ℕ → ℚ)
    (alpha flows rates rates' c_rates : ℕ → ℚ) (threshold : ℚ) (m : ℕ)
    (hr : rates m ≤ rates' m) (hother : ∀ k, k ≠ m → rates' k = rates k) :
    fvalLe (ntcFinal nbr lodf alpha flows rates c_rates threshold m)
      (ntcFinal nbr lodf alpha flows rates' c_rates threshold m) := by
  unfold ntcFinal
  by_cases hg : |alpha m| > threshold ∧ |flows m| < rates m
  · have hg' : |alpha m| > threshold ∧ |flows m| < rates' m :=
      ⟨hg.1, lt_of_lt_of_le hg.2 hr⟩
    rw [if_pos hg, if_pos hg']
    exact ntcFold_mono lodf alpha flows c_rates threshold m _
      (atcVal_nonneg _ (le_of_lt hg.2)) (atcVal_nonneg _ (le_of_lt hg'.2))
      (atcVal_rate_mono _ _ hr)
  · rw [if_neg hg]
    by_cases hg' : |alpha m| > threshold ∧ |flows m| < rates' m
    · rw [if_pos hg']
      exact fvalLe_of_nonneg_zero (ntcFold_nonneg lodf alpha flows c_rates
        threshold m _ (atcVal_nonneg _ (le_of_lt hg'.2)))
    · rw [if_neg hg']
      exact fvalLe_refl _

/-- C7, witness: raising branch 0's rate from 1 to 2 on a one-branch system
does not decrease its final limit. -/
theorem C7_rate_mono_witness :
    fvalLe (ntcFinal 1 (fun _ _ => 0) (fun _ => 1) (fun _ => 0) (fun _ => 1)
        (fun _ => 1) (1 / 50) 0)
      (ntcFinal 1 (fun _ _ => 0) (fun _ => 1) (fun _ => 0)
        (fun k => if k = 0 then 2 else 1) (fun _ => 1) (1 / 50) 0) :=
  C7_rate_mono 1 (fun _ _ => 0) (fun _ => 1) (fun _ => 0) (fun _ => 1)
    (fun k => if k = 0 then 2 else 1) (fun _ => 1) (1 / 50) 0
    (by norm_num) (fun k hk => by simp [hk])

/-! ## C6: the shared Vbus check-or-initialize update
(circuit_to_data.py: get_shunt_data lines 163-167, get_generator_data lines
247-251, get_battery_data lines 341-345 — the three blocks are identical) -/

/-- One controllable-voltage device's update of its bus's entry of the shared
`Vbus` guess array, modelled as a complex `(re, im)` pair of rationals.  The
source overwrites when `Vbus[i, 0].real == 1.0` (the real part alone), else
logs a `'Different set points'` error when `elm.Vset != Vbus[i, 0]` (Python
equality of the real set point against the stored complex, i.e. the stored
value differs from `(vset, 0)`); the stored value is written as
`complex(elm.Vset, 0)`.  Returns the new entry and whether the error was
logged. -/
def vbusDeviceStep (V : ℚ × ℚ) (vset : ℚ) : (ℚ × ℚ) × Bool :=
  if V.1 = 1 then ((vset, 0), false)
  else if V ≠ (vset, 0) then (V, true)
  else (V, false)

/-- Sequential processing of the set points of several devices attached to
the same bus, with the number of logged `'Different set points'` errors. -/
def vbusProcess (V : ℚ × ℚ) (vsets : List ℚ) : (ℚ × ℚ) × ℕ :=
  vsets.foldl
    (fun s v =>
      ((vbusDeviceStep s.1 v).1, s.2 + (if (vbusDeviceStep s.1 v).2 then 1 else 0)))
    (V, 0)

/-- C6, counterexample.  The claim says a bus already holding a *different*
set point from a previously processed device keeps the earlier value and a
`'Different set points'` error is logged.  Starting from the uninitialized
default `(1, 0)`, a first device with set point exactly `1.0` stores `(1, 0)`
and a second device with set point `1.05` then *overwrites* it (the code's
uninitialized test is only `real == 1.0`, which cannot tell a stored set
point of `1.0` from the default), with no error logged: the later value wins. -/
theorem C6_counterexample :
    vbusProcess (1, 0) [1, 21 / 20] = ((21 / 20, 0), 0) ∧
    (1 : ℚ) ≠ 21 / 20 := by
  constructor
  · simp [vbusProcess, vbusDeviceStep]
  · norm_num

/-- C6, amended.  The check-or-initialize rule tests only the *real part*:
when `Vbus[i].real == 1.0` the entry is treated as uninitialized and
overwritten by the device's set point with no error — even if it was stored
by a previous device whose set point was exactly `1.0`; when the real part
differs from `1.0`, a different set point logs the non-fatal error and the
earlier value wins, while an equal set point does nothing; consequently a
stored set point with real part `≠ 1` survives any sequence of later
devices. -/
theorem C6_amended (V : ℚ × ℚ) (vset w : ℚ) (vsets : List ℚ) :
    (V.1 = 1 → vbusDeviceStep V vset = ((vset, 0), false)) ∧
    (V.1 ≠ 1 → V ≠ (vset, 0) → vbusDeviceStep V vset = (V, true)) ∧
    (V.1 ≠ 1 → V = (vset, 0) → vbusDeviceStep V vset = (V, false)) ∧
    (w ≠ 1 → (vbusProcess (w, 0) vsets).1 = (w, 0)) := by
  refine ⟨fun h1 => by rw [vbusDeviceStep, if_pos h1],
    fun h1 h2 => by rw [vbusDeviceStep, if_neg h1, if_pos h2],
    fun h1 h2 => by rw [vbusDeviceStep, if_neg h1, if_neg (by simp [h2])], ?_⟩
  intro hw
  have hstep : ∀ (k : ℕ) (v : ℚ),
      ((vbusDeviceStep (w, 0) v).1, k + (if (vbusDeviceStep (w, 0) v).2 then 1 else 0)).1
        = (w, 0) := by
    intro k v
    rw [vbusDeviceStep]
    simp only [if_neg hw]
    by_cases h2 : ((w, 0) : ℚ × ℚ) ≠ (v, 0)
    · rw [if_pos h2]
    · rw [if_neg h2]
  -- the value component never changes once its real part differs from 1
  suffices h : ∀ (k : ℕ), (vsets.foldl
      (fun s v =>
        ((vbusDeviceStep s.1 v).1, s.2 + (if (vbusDeviceStep s.1 v).2 then 1 else 0)))
      ((w, 0), k)).1 = (w, 0) from h 0
  induction vsets with
  | nil => intro k; rfl
  | cons v rest ih =>
    intro k
    rw [List.foldl_cons]
    have hv : (vbusDeviceStep (w, 0) v).1 = (w, 0) := by
      rw [vbusDeviceStep]
      simp only [if_neg hw]
      by_cases h2 : ((w, 0) : ℚ × ℚ) ≠ (v, 0)
      · rw [if_pos h2]
      · rw [if_neg h2]
    rw [hv]
    exact ih _

/-- C6, witness: a stored set point `21/20` survives later devices with set
points `1` and `3/2` (and the real-part-only overwrite fires at `(1, 0)`). -/
theorem C6_amended_witness :
    vbusDeviceStep (1, 0) (21 / 20) = ((21 / 20, 0), false) ∧
    (vbusProcess (21 / 20, 0) [1, 3 / 2]).1 = (21 / 20, 0) := by
  constructor
  · exact (C6_amended (1, 0) (21 / 20) (21 / 20) [1, 3 / 2]).1 rfl
  · exact (C6_amended (1, 0) (21 / 20) (21 / 20) [1, 3 / 2]).2.2.2 (by norm_num)

/-! ## C8: HVDC bus-type forcing (circuit_to_data.py, get_hvdc_data lines 954-1024) -/

/-- An HVDC link as seen by `get_hvdc_data`: resolved terminal bus indices
`f = bus_dict[elm.bus_from]`, `t = bus_dict[elm.bus_to]` and the active flag. -/
structure HvdcElm where
  f : ℕ
  t : ℕ
  active : Bool
  deriving Repr, DecidableEq

/-- In-place write into the bus-type array. -/
def writeN (g : ℕ → ℕ) (i v : ℕ) : ℕ → ℕ := fun j => if j = i then v else g j

/-- The bus-type mutation of `get_hvdc_data`: for each HVDC link, *if the
link is active*, force both terminal bus types to PV
(`bus_types[f] = BusMode.PV.value; bus_types[t] = BusMode.PV.value`). -/
def hvdcForceTypes (links : List HvdcElm) (bus_types : ℕ → ℕ) : ℕ → ℕ :=
  links.foldl
    (fun bt e => if e.active then writeN (writeN bt e.f pvCode) e.t pvCode else bt)
    bus_types

/-- C8, counterexample.  The claim says *every* HVDC link forces its
terminals to PV; the code guards the write with `if elm.active`, so an
inactive link between two PQ buses leaves them PQ. -/
theorem C8_counterexample :
    hvdcForceTypes [⟨0, 1, false⟩] (fun _ => pqCode) 0 = pqCode ∧
    hvdcForceTypes [⟨0, 1, false⟩] (fun _ => pqCode) 1 = pqCode ∧
    pqCode ≠ pvCode := by decide

/-- Once a bus type is PV, the HVDC pass keeps it PV (it only ever writes PV). -/
lemma hvdcForceTypes_keeps_pv (links : List HvdcElm) (bus_types : ℕ → ℕ)
    (i : ℕ) (h : bus_types i = pvCode) :
    hvdcForceTypes links bus_types i = pvCode := by
  induction links generalizing bus_types with
  | nil => exact h
  | cons e rest ih =>
    rw [hvdcForceTypes, List.foldl_cons]
    by_cases ha : e.active
    · rw [if_pos ha]
      refine ih _ ?_
      unfold writeN
      by_cases h1 : i = e.t
      · rw [if_pos h1]
      · rw [if_neg h1]
        by_cases h2 : i = e.f
        · rw [if_pos h2]
        · rw [if_neg h2]; exact h
    · rw [if_neg ha]
      exact ih _ h

/-- C8, amended.  For every *active* HVDC link, compilation forces the
tentative bus type of both terminal buses to PV, even if they would
otherwise be PQ; inactive links leave the types untouched by them. -/
theorem C8_amended (links : List HvdcElm) (bus_types : ℕ → ℕ) (e : HvdcElm)
    (he : e ∈ links) (ha : e.active = true) :
    hvdcForceTypes links bus_types e.f = pvCode ∧
    hvdcForceTypes links bus_types e.t = pvCode := by
  induction links generalizing bus_types with
  | nil => cases he
  | cons l rest ih =>
    rw [hvdcForceTypes, List.foldl_cons]
    rcases List.mem_cons.mp he with rfl | he
    · rw [if_pos ha]
      constructor
      · refine hvdcForceTypes_keeps_pv rest _ e.f ?_
        unfold writeN
        by_cases h1 : e.f = e.t
        · rw [if_pos h1]
        · rw [if_neg h1, if_pos rfl]
      · refine hvdcForceTypes_keeps_pv rest _ e.t ?_
        unfold writeN
        rw [if_pos rfl]
    · by_cases hl : l.active
      · rw [if_pos hl]
        exact ih _ he
      · rw [if_neg hl]
        exact ih _ he

/-- C8, witness: the active link `(0, 1)` forces both its PQ terminals to PV
even with an inactive link ahead of it in the registry. -/
theorem C8_amended_witness :
    hvdcForceTypes [⟨2, 3, false⟩, ⟨0, 1, true⟩] (fun _ => pqCode) 0 = pvCode ∧
    hvdcForceTypes [⟨2, 3, false⟩, ⟨0, 1, true⟩] (fun _ => pqCode) 1 = pvCode :=
  C8_amended [⟨2, 3, false⟩, ⟨0, 1, true⟩] (fun _ => pqCode) ⟨0, 1, true⟩
    (by decide) rfl

/-! ## C9: unified BranchData incidence (circuit_to_data.py, get_branch_data lines 588-951) -/

/-- A branch-like device as seen by `get_branch_data`: resolved endpoint bus
indices `f = bus_dict[elm.bus_from]`, `t = bus_dict[elm.bus_to]`. -/
structure BranchElm where
  f : ℕ
  t : ℕ
  deriving Repr, DecidableEq

/-- The branch-carrying collections of a circuit, with its bus count. -/
structure BranchCircuit where
  nbus : ℕ
  lines : List BranchElm
  dc_lines : List BranchElm
  transformers2w : List BranchElm
  vsc_devices : List BranchElm
  upfc_devices : List BranchElm

/-- `nbr = nline + ntr + nvsc + ndcline + nupfc`. -/
def BranchCircuit.nbr (c : BranchCircuit) : ℕ :=
  c.lines.length + c.transformers2w.length + c.vsc_devices.length +
    c.dc_lines.length + c.upfc_devices.length

/-- The unified branch ordering of `get_branch_data`: lines at offset 0, DC
lines at offset `nline`, 2-winding transformers at `nline + ndcline`, VSC
next, UPFC last — the row `ii = offset + i` of each loop is exactly the
position in this concatenation. -/
def branchSeq (c : BranchCircuit) : List BranchElm :=
  c.lines ++ c.dc_lines ++ c.transformers2w ++ c.vsc_devices ++ c.upfc_devices

/-- `F[ii] = f` across the five loops. -/
def branchF (c : BranchCircuit) (i : ℕ) : ℕ := ((branchSeq c).getD i ⟨0, 0⟩).f

/-- `T[ii] = t` across the five loops. -/
def branchT (c : BranchCircuit) (i : ℕ) : ℕ := ((branchSeq c).getD i ⟨0, 0⟩).t

/-- Sequential sparse writes `M[r, c] = 1` into a zero-compatible matrix. -/
def applyOnes (ws : List (ℕ × ℕ)) (M : ℕ → ℕ → ℚ) : ℕ → ℕ → ℚ :=
  ws.foldl (fun A p => fun r c => if r = p.1 ∧ c = p.2 then 1 else A r c) M

/-- `C_branch_bus_f`: zeros, then `C_branch_bus_f[ii, F[ii]] = 1` for each
branch row in loop order. -/
def C_branch_bus_f (c : BranchCircuit) : ℕ → ℕ → ℚ :=
  applyOnes ((List.range (branchSeq c).length).map (fun i => (i, branchF c i)))
    (fun _ _ => 0)

/-- `C_branch_bus_t`: zeros, then `C_branch_bus_t[ii, T[ii]] = 1` for each
branch row in loop order. -/
def C_branch_bus_t (c : BranchCircuit) : ℕ → ℕ → ℚ :=
  applyOnes ((List.range (branchSeq c).length).map (fun i => (i, branchT c i)))
    (fun _ _ => 0)

lemma nbr_eq_length (c : BranchCircuit) : c.nbr = (branchSeq c).length := by
  simp only [BranchCircuit.nbr, branchSeq, List.length_append]
  omega

lemma applyOnes_lookup (F : ℕ → ℕ) (n : ℕ) (M : ℕ → ℕ → ℚ) (r j : ℕ) :
    applyOnes ((List.range n).map (fun i => (i, F i))) M r j =
      if r < n ∧ j = F r then 1 else M r j := by
  induction n generalizing M with
  | zero => simp [applyOnes]
  | succ n ih =>
    rw [List.range_succ, List.map_append, applyOnes, List.foldl_append]
    have hstep : ∀ (A : ℕ → ℕ → ℚ),
        ([((n : ℕ), F n)].foldl
          (fun A p => fun r c => if r = p.1 ∧ c = p.2 then 1 else A r c) A) r j =
        if r = n ∧ j = F n then 1 else A r j := by
      intro A
      rfl
    simp only [List.map_cons, List.map_nil]
    rw [hstep]
    by_cases hrn : r = n
    · subst hrn
      by_cases hj : j = F r
      · rw [if_pos ⟨rfl, hj⟩, if_pos ⟨Nat.lt_succ_self r, hj⟩]
      · rw [if_neg (fun h => hj h.2)]
        show applyOnes _ M r j = _
        rw [ih]
        rw [if_neg (fun h => absurd h.1 (lt_irrefl r)), if_neg (fun h => hj h.2)]
    · rw [if_neg (fun h => hrn h.1)]
      show applyOnes _ M r j = _
      rw [ih]
      by_cases hcond : r < n ∧ j = F r
      · rw [if_pos hcond, if_pos ⟨Nat.lt_succ_of_lt hcond.1, hcond.2⟩]
      · rw [if_neg hcond, if_neg (fun h =>
          hcond ⟨lt_of_le_of_ne (Nat.lt_succ_iff.mp h.1) hrn, h.2⟩)]

lemma branchSeq_getD_mem {c : BranchCircuit} {i : ℕ}
    (hi : i < (branchSeq c).length) : (branchSeq c).getD i ⟨0, 0⟩ ∈ branchSeq c := by
  rw [List.getD_eq_getElem _ _ hi]
  exact List.getElem_mem hi

/-- C9, confirmed.  For every compiled circuit whose devices reference valid
buses (the caller contract) and every branch row `i` of the unified
`BranchData`: `C_branch_bus_f[i, F[i]] = 1`, `C_branch_bus_t[i, T[i]] = 1`,
every other entry of row `i` of either incidence matrix is 0, and `F[i]`,
`T[i]` index buses of the same circuit. -/
theorem C9_branch_incidence (c : BranchCircuit)
    (hvalid : ∀ e ∈ branchSeq c, e.f < c.nbus ∧ e.t < c.nbus)
    (i : ℕ) (hi : i < c.nbr) :
    C_branch_bus_f c i (branchF c i) = 1 ∧
    C_branch_bus_t c i (branchT c i) = 1 ∧
    (∀ j, j ≠ branchF c i → C_branch_bus_f c i j = 0) ∧
    (∀ j, j ≠ branchT c i → C_branch_bus_t c i j = 0) ∧
    branchF c i < c.nbus ∧ branchT c i < c.nbus := by
  rw [nbr_eq_length] at hi
  have hmem := branchSeq_getD_mem hi
  refine ⟨?_, ?_, ?_, ?_, (hvalid _ hmem).1, (hvalid _ hmem).2⟩
  · rw [C_branch_bus_f, applyOnes_lookup, if_pos ⟨hi, rfl⟩]
  · rw [C_branch_bus_t, applyOnes_lookup, if_pos ⟨hi, rfl⟩]
  · intro j hj
    rw [C_branch_bus_f, applyOnes_lookup, if_neg (fun h => hj h.2)]
  · intro j hj
    rw [C_branch_bus_t, applyOnes_lookup, if_neg (fun h => hj h.2)]

/-- C9, witness: a circuit with two buses, one line `0 → 1` and one
transformer `1 → 0`; row 1 (the transformer, after the line/DC-line offsets)
has its single 1 at column `T[1] = 0` in `C_branch_bus_t`. -/
theorem C9_branch_incidence_witness :
    C_branch_bus_f ⟨2, [⟨0, 1⟩], [], [⟨1, 0⟩], [], []⟩ 1
      (branchF ⟨2, [⟨0, 1⟩], [], [⟨1, 0⟩], [], []⟩ 1) = 1 ∧
    C_branch_bus_t ⟨2, [⟨0, 1⟩], [], [⟨1, 0⟩], [], []⟩ 1
      (branchT ⟨2, [⟨0, 1⟩], [], [⟨1, 0⟩], [], []⟩ 1) = 1 ∧
    (∀ j, j ≠ branchF ⟨2, [⟨0, 1⟩], [], [⟨1, 0⟩], [], []⟩ 1 →
      C_branch_bus_f ⟨2, [⟨0, 1⟩], [], [⟨1, 0⟩], [], []⟩ 1 j = 0) ∧
    (∀ j, j ≠ branchT ⟨2, [⟨0, 1⟩], [], [⟨1, 0⟩], [], []⟩ 1 →
      C_branch_bus_t ⟨2, [⟨0, 1⟩], [], [⟨1, 0⟩], [], []⟩ 1 j = 0) ∧
    branchF ⟨2, [⟨0, 1⟩], [], [⟨1, 0⟩], [], []⟩ 1 < 2 ∧
    branchT ⟨2, [⟨0, 1⟩], [], [⟨1, 0⟩], [], []⟩ 1 < 2 :=
  C9_branch_incidence ⟨2, [⟨0, 1⟩], [], [⟨1, 0⟩], [], []⟩
    (by decide) 1 (by decide)

end GridCal
